import Mathlib

/-!
Verification of a Gmail cleanup agent (fetch → group → review → execute).

The definitions below are a shallow embedding of the repository's Python
sources (main.py, app.py, config.py).  External library calls (the Gmail
HTTP API, base64 decoding, console input) are modelled as explicit
parameters: an abstract listing result, a per-message lookup function, a
decoder returning none on failure, trash-call outcomes as a predicate on
message ids, and the sequence of console inputs per sender.  All mailbox
and filesystem side effects of the execute step are recorded in an
explicit event trace, in the order the code performs them.
-/

/-! ### Python-style string primitives -/

/-- Python str.strip: remove leading and trailing whitespace. -/
def pyStrip (s : String) : String :=
  String.mk (((s.toList.dropWhile Char.isWhitespace).reverse.dropWhile Char.isWhitespace).reverse)

/-- Python str.lower (ASCII case folding, as Char.toLower). -/
def pyLower (s : String) : String :=
  String.mk (s.toList.map Char.toLower)

/-- Python str.replace with single-character pattern and replacement. -/
def pyReplaceChar (a b : Char) (s : String) : String :=
  String.mk (s.toList.map (fun c => if c = a then b else c))

/-! ### Data model (main.py Email / SenderGroup / Decision) -/

structure Email where
  id : String
  subject : String
  sender : String
  date : String
  body_b64 : String
  preview : String
deriving DecidableEq

structure SenderGroup where
  sender : String
  emails : List Email
  count : Nat
deriving DecidableEq

inductive Decision where
  | skip : Decision
  | delete : Decision
deriving DecidableEq

/-! ### Sender normalization (main.py group_by_sender, lines 134-138)

Python:  sender_raw = email["sender"].strip()
         sender = sender_raw.split("<")[1].split(">")[0].strip().lower()
                  if "<" in sender_raw and ">" in sender_raw else sender_raw.lower()

str.split("<")[1] is the text after the first "<" up to the next "<" (or
the end); .split(">")[0] then cuts that at the first ">". -/

def normalizeSender (raw : String) : String :=
  let t := pyStrip raw
  if '<' ∈ t.toList ∧ '>' ∈ t.toList then
    pyLower (pyStrip (String.mk
      ((((t.toList.dropWhile (fun c => c != '<')).drop 1).takeWhile
        (fun c => c != '<')).takeWhile (fun c => c != '>'))))
  else pyLower t

/-- Modeled from the claim as stated (spec 8, first bullet): when an
angle-bracket address is present — a '<' with a '>' somewhere after it —
the result is the lower-cased trimmed substring between the first '<' and
the first '>' following it; otherwise the trimmed lower-cased full
string. -/
def specNormalize (raw : String) : String :=
  let t := pyStrip raw
  let afterLt := (t.toList.dropWhile (fun c => c != '<')).drop 1
  if '<' ∈ t.toList ∧ '>' ∈ afterLt then
    pyLower (pyStrip (String.mk (afterLt.takeWhile (fun c => c != '>'))))
  else pyLower t

/-- Independent recursive scanner: the run of characters following the
first '<', stopping at the next '<' or '>'.  Used to state the amended
form of the normalization claim. -/
def grabAddr : List Char → List Char
  | [] => []
  | c :: cs => if c = '<' ∨ c = '>' then [] else c :: grabAddr cs

/-- Scan for the first '<' and return the address run after it. -/
def extractAddr : List Char → List Char
  | [] => []
  | c :: cs => if c = '<' then grabAddr cs else extractAddr cs

/-- Amended normalization claim, stated by an independent definition:
if the trimmed sender contains both '<' and '>' anywhere, the result is
the lower-cased trimmed text after the first '<' up to the next '<' or
'>'; otherwise the trimmed lower-cased full string. -/
def specNormalizeAmended (raw : String) : String :=
  let t := pyStrip raw
  if '<' ∈ t.toList ∧ '>' ∈ t.toList then
    pyLower (pyStrip (String.mk (extractAddr t.toList)))
  else pyLower t

/-! ### Grouping (main.py group_by_sender, lines 130-146)

The Python dict preserves insertion order, so groups are modelled as an
ordered list; an existing key updates its entry in place, a new key is
appended at the end. -/

def insertEmail (s : String) (e : Email) : List SenderGroup → List SenderGroup
  | [] => [{ sender := s, emails := [e], count := 1 }]
  | g :: gs =>
    if g.sender = s then
      { sender := g.sender, emails := g.emails ++ [e], count := g.count + 1 } :: gs
    else g :: insertEmail s e gs

def group_by_sender (emails : List Email) : List SenderGroup :=
  emails.foldl (fun gs e => insertEmail (normalizeSender e.sender) e gs) []

/-- Python dict .get(sender): first (and only) group with that key. -/
def lookupGroup (groups : List SenderGroup) (s : String) : Option SenderGroup :=
  groups.find? (fun g => g.sender == s)

/-! ### Review presentation order (main.py line 157, app.py line 278)

Python sorted(groups.items(), key=lambda x: -x[1]["count"]) is a stable
sort in descending count order; stable sorting is embedded as insertion
sort that keeps an earlier group in front of every later group of equal
count. -/

def insertDesc (g : SenderGroup) : List SenderGroup → List SenderGroup
  | [] => [g]
  | h :: t => if h.count ≤ g.count then g :: h :: t else h :: insertDesc g t

def sortByCountDesc : List SenderGroup → List SenderGroup
  | [] => []
  | x :: xs => insertDesc x (sortByCountDesc xs)

def presentationOrder (groups : List SenderGroup) : List SenderGroup :=
  sortByCountDesc groups

/-! ### Console decision loop (main.py human_review, lines 167-181)

choice = input(prompt).strip().lower(); empty input or skip/keep/k picks
skip, d/delete/t/trash/remove picks delete, anything else re-prompts.
The successive console answers for one sender are modelled as a list;
none means every supplied answer was rejected and the loop is still
prompting. -/

def normInput (s : String) : String := pyLower (pyStrip s)

def isSkipInput (c : String) : Bool :=
  c == "" || c == "skip" || c == "keep" || c == "k"

def isDeleteInput (c : String) : Bool :=
  c == "d" || c == "delete" || c == "t" || c == "trash" || c == "remove"

def reviewDecision : List String → Option Decision
  | [] => none
  | inp :: rest =>
    if isSkipInput (normInput inp) then some Decision.skip
    else if isDeleteInput (normInput inp) then some Decision.delete
    else reviewDecision rest

/-! ### Execute step (main.py execute_actions, lines 188-237)

For each (sender, delete) pair in decision order: look the group up, save
every email (filename id_safesender.json), then issue a trash call per
email, collecting only successful ids.  Trash outcomes are modelled by
the predicate trashOk on message ids.  Every side effect is recorded as
an event, in program order. -/

/-- Python sender.replace("@", "_").replace(".", "_")[:48]. -/
def safeSender (sender : String) : String :=
  String.mk ((pyReplaceChar '.' '_' (pyReplaceChar '@' '_' sender)).toList.take 48)

/-- Python f-string id_safesender.json. -/
def fname (e : Email) (safe : String) : String :=
  e.id ++ "_" ++ safe ++ ".json"

inductive ExecEvent where
  | save : String → String → ExecEvent
  | trashCall : String → String → Bool → ExecEvent
deriving DecidableEq

def evSender : ExecEvent → String
  | ExecEvent.save _ s => s
  | ExecEvent.trashCall _ s _ => s

def isSaveFor (S : String) : ExecEvent → Bool
  | ExecEvent.save _ s => s == S
  | ExecEvent.trashCall _ _ _ => false

def isTrashFor (S : String) : ExecEvent → Bool
  | ExecEvent.save _ _ => false
  | ExecEvent.trashCall _ s _ => s == S

def senderEvents (groups : List SenderGroup) (trashOk : String → Bool) (s : String) :
    List ExecEvent :=
  match lookupGroup groups s with
  | none => []
  | some g =>
    g.emails.map (fun e => ExecEvent.save (fname e (safeSender s)) s)
      ++ g.emails.map (fun e => ExecEvent.trashCall e.id s (trashOk e.id))

def execTrace (groups : List SenderGroup) (trashOk : String → Bool) :
    List (String × Decision) → List ExecEvent
  | [] => []
  | (s, d) :: rest =>
    (if d = Decision.delete then senderEvents groups trashOk s else [])
      ++ execTrace groups trashOk rest

/-- Accumulated saved file names, in write order. -/
def savedPaths (t : List ExecEvent) : List String :=
  t.filterMap fun ev =>
    match ev with
    | ExecEvent.save f _ => some f
    | ExecEvent.trashCall _ _ _ => none

/-- Accumulated successfully trashed message ids. -/
def trashedIds (t : List ExecEvent) : List String :=
  t.filterMap fun ev =>
    match ev with
    | ExecEvent.trashCall i _ ok => if ok then some i else none
    | ExecEvent.save _ _ => none

/-- Every message id for which a trash call was issued at all. -/
def allTrashIds (t : List ExecEvent) : List String :=
  t.filterMap fun ev =>
    match ev with
    | ExecEvent.trashCall i _ _ => some i
    | ExecEvent.save _ _ => none

/-- The pair of output lists returned by execute_actions. -/
def execute_actions (groups : List SenderGroup) (trashOk : String → Bool)
    (decisions : List (String × Decision)) : List String × List String :=
  (savedPaths (execTrace groups trashOk decisions),
   trashedIds (execTrace groups trashOk decisions))

/-- The (sender, email) pairs saved by the execute step, in save order;
used to reason about the written filenames. -/
def savedPairs (groups : List SenderGroup) : List (String × Decision) → List (String × Email)
  | [] => []
  | (s, d) :: rest =>
    (if d = Decision.delete then
      match lookupGroup groups s with
      | some g => g.emails.map (fun e => (s, e))
      | none => []
    else []) ++ savedPairs groups rest

/-- Message id read back off a written filename: the characters before
the first underscore. -/
def extractId (fn : String) : String :=
  String.mk (fn.toList.takeWhile (fun c => c != '_'))

/-! ### Fetch stage (main.py fetch_emails, lines 75-127)

The listing call, the per-message get calls and the base64 decoder are
external; they enter the model as parameters.  A raised HttpError is an
Except.error; the whole loop sits in one try block, so any error yields
the empty email list. -/

structure HttpError where
  message : String
deriving DecidableEq

structure PartBody where
  data : Option String
deriving DecidableEq

structure MsgPart where
  mimeType : Option String
  body : Option PartBody
deriving DecidableEq

structure MsgPayload where
  headers : List (String × String)
  parts : Option (List MsgPart)
  body : Option PartBody
deriving DecidableEq

structure Msg where
  payload : MsgPayload
deriving DecidableEq

/-- Python: part.get("mimeType") == "text/plain" and "data" in part.get("body", {}). -/
def partIsTextPlain (p : MsgPart) : Bool :=
  p.mimeType == some "text/plain" &&
    (match p.body with
     | some b => b.data.isSome
     | none => false)

/-- Body extraction: first text/plain part with data if the payload is
multipart, else the top-level body data, else the empty string. -/
def bodyB64 (pl : MsgPayload) : String :=
  match pl.parts with
  | some ps =>
    match ps.find? partIsTextPlain with
    | some p =>
      match p.body with
      | some b => b.data.getD ""
      | none => ""
    | none => ""
  | none =>
    match pl.body with
    | some b => b.data.getD ""
    | none => ""

/-- Python dict comprehension over headers with lower-cased names: later
duplicates overwrite, so the last matching header wins. -/
def headerLookup (hs : List (String × String)) (name : String) : Option String :=
  (hs.reverse.find? (fun h => pyLower h.1 == name)).map (fun h => h.2)

/-- Preview computation: empty body yields empty preview; a decoder
failure yields the sentinel; otherwise the text truncated to 140
characters with an ellipsis. -/
def mkPreview (decode : String → Option String) (b : String) : String :=
  if b = "" then ""
  else
    match decode b with
    | some decoded => if decoded.length > 140 then decoded.take 140 ++ "…" else decoded
    | none => "[decode error]"

def mkEmail (decode : String → Option String) (mid : String) (m : Msg) : Email :=
  { id := mid
    subject := (headerLookup m.payload.headers "subject").getD "(no subject)"
    sender := (headerLookup m.payload.headers "from").getD "Unknown"
    date := (headerLookup m.payload.headers "date").getD "Unknown"
    body_b64 := bodyB64 m.payload
    preview := mkPreview decode (bodyB64 m.payload) }

def fetchLoop (getMsg : String → Except HttpError Msg) (decode : String → Option String) :
    List String → Except HttpError (List Email)
  | [] => Except.ok []
  | mid :: rest =>
    match getMsg mid with
    | Except.error er => Except.error er
    | Except.ok m =>
      match fetchLoop getMsg decode rest with
      | Except.error er => Except.error er
      | Except.ok es => Except.ok (mkEmail decode mid m :: es)

def fetch_emails (listing : Except HttpError (List String))
    (getMsg : String → Except HttpError Msg) (decode : String → Option String) :
    List Email :=
  match listing with
  | Except.error _ => []
  | Except.ok ids =>
    match fetchLoop getMsg decode ids with
    | Except.error _ => []
    | Except.ok es => es

/-! ### Concrete run used by the witness theorems -/

def demoEmail1 : Email :=
  { id := "id1", subject := "s1", sender := "A <a@x.com>", date := "d1",
    body_b64 := "", preview := "" }

def demoEmail2 : Email :=
  { id := "id2", subject := "s2", sender := "b@y.com", date := "d2",
    body_b64 := "", preview := "" }

def demoEmail3 : Email :=
  { id := "id3", subject := "s3", sender := "a@x.com", date := "d3",
    body_b64 := "", preview := "" }

def demoEmails : List Email := [demoEmail1, demoEmail2, demoEmail3]

def demoDecisions : List (String × Decision) :=
  [("a@x.com", Decision.delete), ("b@y.com", Decision.skip)]


def demoMsg : Msg :=
  { payload :=
    { headers := [("From", "A <a@x.com>"), ("Subject", "hello")],
      parts := none,
      body := some { data := some "!!!" } } }

def clashEmailA : Email :=
  { id := "a", subject := "s", sender := "b_c", date := "d", body_b64 := "", preview := "" }

def clashEmailB : Email :=
  { id := "a_b", subject := "s", sender := "c", date := "d", body_b64 := "", preview := "" }

def clashEmails : List Email := [clashEmailA, clashEmailB]

def clashDecisions : List (String × Decision) :=
  [("b_c", Decision.delete), ("c", Decision.delete)]

/-! ### Theorems -/

/-! #### C3: sender normalization -/

theorem grabAddr_eq : ∀ cs : List Char,
    grabAddr cs = (cs.takeWhile (fun c => c != '<')).takeWhile (fun c => c != '>')
  | [] => rfl
  | d :: ds => by
    by_cases h1 : d = '<'
    · subst h1
      simp [grabAddr, List.takeWhile_cons]
    · by_cases h2 : d = '>'
      · subst h2
        simp [grabAddr, List.takeWhile_cons]
      · simp [grabAddr, h1, h2, List.takeWhile_cons, grabAddr_eq ds]

theorem extractAddr_eq : ∀ l : List Char,
    extractAddr l =
      (((l.dropWhile (fun c => c != '<')).drop 1).takeWhile (fun c => c != '<')).takeWhile
        (fun c => c != '>')
  | [] => rfl
  | c :: cs => by
    by_cases h : c = '<'
    · subst h
      simp [extractAddr, List.dropWhile_cons, grabAddr_eq cs]
    · simp [extractAddr, h, List.dropWhile_cons, extractAddr_eq cs]

/-- C3 counterexample: on the raw sender "<a<b>" an angle-bracket address
is present and the substring between the angle brackets is "a<b", but the
code stops the extraction at the second '<' and returns "a", so the
normalization result is not the substring between the angle brackets. -/
theorem normalizeSender_claim_counterexample :
    normalizeSender "<a<b>" = "a" ∧ specNormalize "<a<b>" = "a<b" ∧
      normalizeSender "<a<b>" ≠ specNormalize "<a<b>" := by
  decide

/-- C3 (amended): for every raw sender string, if the trimmed string
contains both '<' and '>' anywhere, normalization returns the lower-cased
trimmed run of characters after the first '<' stopping at the next '<' or
'>'; otherwise it returns the trimmed lower-cased full string. -/
theorem normalizeSender_amended_eq (raw : String) :
    normalizeSender raw = specNormalizeAmended raw := by
  simp only [normalizeSender, specNormalizeAmended, extractAddr_eq]

/-! #### Grouping machinery -/

theorem insertEmail_senders_mem (s : String) (e : Email) : ∀ gs : List SenderGroup,
    s ∈ gs.map (fun g => g.sender) →
    (insertEmail s e gs).map (fun g => g.sender) = gs.map (fun g => g.sender)
  | [], h => by simp at h
  | g :: gs, h => by
    by_cases hg : g.sender = s
    · simp [insertEmail, hg]
    · have htail : s ∈ gs.map (fun g => g.sender) := by
        rcases List.mem_cons.mp h with h1 | h1
        · exact absurd h1.symm hg
        · exact h1
      simp [insertEmail, hg, insertEmail_senders_mem s e gs htail]

theorem insertEmail_senders_not (s : String) (e : Email) : ∀ gs : List SenderGroup,
    s ∉ gs.map (fun g => g.sender) →
    (insertEmail s e gs).map (fun g => g.sender) = gs.map (fun g => g.sender) ++ [s]
  | [], _ => by simp [insertEmail]
  | g :: gs, h => by
    have hg : g.sender ≠ s := by
      intro he
      exact h (by simp [he])
    have htail : s ∉ gs.map (fun g => g.sender) := by
      intro hm
      exact h (by simp [hm])
    simp [insertEmail, hg, insertEmail_senders_not s e gs htail]

theorem insertEmail_nodup (s : String) (e : Email) (gs : List SenderGroup)
    (h : (gs.map (fun g => g.sender)).Nodup) :
    ((insertEmail s e gs).map (fun g => g.sender)).Nodup := by
  by_cases hm : s ∈ gs.map (fun g => g.sender)
  · rw [insertEmail_senders_mem s e gs hm]
    exact h
  · rw [insertEmail_senders_not s e gs hm]
    rw [List.nodup_append]
    refine ⟨h, by simp, ?_⟩
    intro a ha hs
    simp at hs
    subst hs
    exact hm ha

theorem insertEmail_sum (s : String) (e : Email) : ∀ gs : List SenderGroup,
    ((insertEmail s e gs).map (fun g => g.count)).sum = ((gs.map (fun g => g.count)).sum) + 1
  | [] => by simp [insertEmail]
  | g :: gs => by
    by_cases hg : g.sender = s
    · simp [insertEmail, hg]
      omega
    · simp [insertEmail, hg, insertEmail_sum s e gs]
      omega

theorem insertEmail_count_len (s : String) (e : Email) : ∀ gs : List SenderGroup,
    (∀ g ∈ gs, g.count = g.emails.length) →
    ∀ g2 ∈ insertEmail s e gs, g2.count = g2.emails.length
  | [], _, g2, hg2 => by
    simp [insertEmail] at hg2
    subst hg2
    simp
  | g :: gs, hall, g2, hg2 => by
    by_cases hg : g.sender = s
    · simp only [insertEmail, if_pos hg] at hg2
      rcases List.mem_cons.mp hg2 with h1 | h1
      · subst h1
        have := hall g (List.mem_cons_self g gs)
        simp [this]
      · exact hall g2 (List.mem_cons_of_mem g h1)
    · simp only [insertEmail, if_neg hg] at hg2
      rcases List.mem_cons.mp hg2 with h1 | h1
      · subst h1
        exact hall g2 (List.mem_cons_self g2 gs)
      · exact insertEmail_count_len s e gs
          (fun g3 hg3 => hall g3 (List.mem_cons_of_mem g hg3)) g2 h1

theorem insertEmail_members (s : String) (e : Email) (hs : normalizeSender e.sender = s) :
    ∀ gs : List SenderGroup,
    (∀ g ∈ gs, ∀ x ∈ g.emails, normalizeSender x.sender = g.sender) →
    ∀ g2 ∈ insertEmail s e gs, ∀ x ∈ g2.emails, normalizeSender x.sender = g2.sender
  | [], _, g2, hg2, x, hx => by
    simp [insertEmail] at hg2
    subst hg2
    simp at hx
    subst hx
    exact hs
  | g :: gs, hall, g2, hg2, x, hx => by
    by_cases hg : g.sender = s
    · simp only [insertEmail, if_pos hg] at hg2
      rcases List.mem_cons.mp hg2 with h1 | h1
      · subst h1
        simp at hx
        rcases hx with hx | hx
        · exact hall g (List.mem_cons_self g gs) x hx
        · subst hx
          rw [hs, hg]
      · exact hall g2 (List.mem_cons_of_mem g h1) x hx
    · simp only [insertEmail, if_neg hg] at hg2
      rcases List.mem_cons.mp hg2 with h1 | h1
      · subst h1
        exact hall g2 (List.mem_cons_self g2 gs) x hx
      · exact insertEmail_members s e hs gs
          (fun g3 hg3 => hall g3 (List.mem_cons_of_mem g hg3)) g2 h1 x hx

theorem insertEmail_keeps (s : String) (e : Email) : ∀ gs : List SenderGroup,
    ∀ g ∈ gs, ∀ x ∈ g.emails, ∃ g2, g2 ∈ insertEmail s e gs ∧ x ∈ g2.emails
  | [], g, hg, _, _ => by simp at hg
  | g0 :: gs, g, hg, x, hx => by
    by_cases hg0 : g0.sender = s
    · simp only [insertEmail, if_pos hg0]
      rcases List.mem_cons.mp hg with h1 | h1
      · subst h1
        exact ⟨_, List.mem_cons_self _ _, by simp [hx]⟩
      · exact ⟨g, List.mem_cons_of_mem _ h1, hx⟩
    · simp only [insertEmail, if_neg hg0]
      rcases List.mem_cons.mp hg with h1 | h1
      · subst h1
        exact ⟨g, List.mem_cons_self _ _, hx⟩
      · obtain ⟨g2, hg2, hx2⟩ := insertEmail_keeps s e gs g h1 x hx
        exact ⟨g2, List.mem_cons_of_mem _ hg2, hx2⟩

theorem insertEmail_adds (s : String) (e : Email) : ∀ gs : List SenderGroup,
    ∃ g2, g2 ∈ insertEmail s e gs ∧ e ∈ g2.emails
  | [] =>
    ⟨{ sender := s, emails := [e], count := 1 }, by simp [insertEmail], by simp⟩
  | g :: gs => by
    by_cases hg : g.sender = s
    · exact ⟨{ sender := g.sender, emails := g.emails ++ [e], count := g.count + 1 },
        by simp [insertEmail, hg], by simp⟩
    · obtain ⟨g2, hg2, he⟩ := insertEmail_adds s e gs
      exact ⟨g2, by simp [insertEmail, hg, List.mem_cons_of_mem, hg2], he⟩

theorem insertEmail_flatten (s : String) (e : Email) : ∀ gs : List SenderGroup,
    (((insertEmail s e gs).map (fun g => g.emails)).flatten).Perm
      (((gs.map (fun g => g.emails)).flatten) ++ [e])
  | [] => by simp [insertEmail]
  | g :: gs => by
    by_cases hg : g.sender = s
    · simp only [insertEmail, if_pos hg, List.map_cons, List.flatten_cons, List.append_assoc]
      exact List.Perm.append_left g.emails List.perm_append_comm
    · simp only [insertEmail, if_neg hg, List.map_cons, List.flatten_cons, List.append_assoc]
      exact List.Perm.append_left g.emails (insertEmail_flatten s e gs)

theorem fold_sum : ∀ (es : List Email) (gs : List SenderGroup),
    (((es.foldl (fun gs e => insertEmail (normalizeSender e.sender) e gs) gs).map
      (fun g => g.count)).sum) = ((gs.map (fun g => g.count)).sum) + es.length
  | [], gs => by simp
  | e :: es, gs => by
    simp only [List.foldl_cons, List.length_cons]
    rw [fold_sum es _, insertEmail_sum]
    omega

theorem fold_wf : ∀ (es : List Email) (gs : List SenderGroup),
    ((gs.map (fun g => g.sender)).Nodup ∧ (∀ g ∈ gs, g.count = g.emails.length) ∧
      (∀ g ∈ gs, ∀ x ∈ g.emails, normalizeSender x.sender = g.sender)) →
    (((es.foldl (fun gs e => insertEmail (normalizeSender e.sender) e gs) gs).map
        (fun g => g.sender)).Nodup ∧
      (∀ g ∈ es.foldl (fun gs e => insertEmail (normalizeSender e.sender) e gs) gs,
        g.count = g.emails.length) ∧
      (∀ g ∈ es.foldl (fun gs e => insertEmail (normalizeSender e.sender) e gs) gs,
        ∀ x ∈ g.emails, normalizeSender x.sender = g.sender))
  | [], gs, h => h
  | e :: es, gs, h => by
    simp only [List.foldl_cons]
    exact fold_wf es _
      ⟨insertEmail_nodup _ e gs h.1,
       insertEmail_count_len _ e gs h.2.1,
       insertEmail_members _ e rfl gs h.2.2⟩

theorem fold_keeps : ∀ (es : List Email) (gs : List SenderGroup) (g : SenderGroup) (x : Email),
    g ∈ gs → x ∈ g.emails →
    ∃ g2, g2 ∈ es.foldl (fun gs e => insertEmail (normalizeSender e.sender) e gs) gs ∧
      x ∈ g2.emails
  | [], gs, g, x, hg, hx => ⟨g, hg, hx⟩
  | e :: es, gs, g, x, hg, hx => by
    simp only [List.foldl_cons]
    obtain ⟨g2, hg2, hx2⟩ := insertEmail_keeps (normalizeSender e.sender) e gs g hg x hx
    exact fold_keeps es _ g2 x hg2 hx2

theorem fold_adds : ∀ (es : List Email) (gs : List SenderGroup) (x : Email), x ∈ es →
    ∃ g2, g2 ∈ es.foldl (fun gs e => insertEmail (normalizeSender e.sender) e gs) gs ∧
      x ∈ g2.emails
  | [], _, x, hx => by simp at hx
  | e :: es, gs, x, hx => by
    simp only [List.foldl_cons]
    rcases List.mem_cons.mp hx with h1 | h1
    · subst h1
      obtain ⟨g2, hg2, hx2⟩ := insertEmail_adds (normalizeSender x.sender) x gs
      exact fold_keeps es _ g2 x hg2 hx2
    · exact fold_adds es _ x h1

theorem fold_flatten : ∀ (es : List Email) (gs : List SenderGroup),
    (((es.foldl (fun gs e => insertEmail (normalizeSender e.sender) e gs) gs).map
      (fun g => g.emails)).flatten).Perm
      ((gs.map (fun g => g.emails)).flatten ++ es)
  | [], gs => by simp
  | e :: es, gs => by
    simp only [List.foldl_cons]
    have h1 := fold_flatten es (insertEmail (normalizeSender e.sender) e gs)
    have h2 := (insertEmail_flatten (normalizeSender e.sender) e gs).append_right es
    refine h1.trans (h2.trans ?_)
    simp

theorem group_by_sender_wf (emails : List Email) :
    ((group_by_sender emails).map (fun g => g.sender)).Nodup ∧
      (∀ g ∈ group_by_sender emails, g.count = g.emails.length) ∧
      (∀ g ∈ group_by_sender emails, ∀ x ∈ g.emails, normalizeSender x.sender = g.sender) :=
  fold_wf emails [] (by simp)

theorem group_by_sender_flatten (emails : List Email) :
    (((group_by_sender emails).map (fun g => g.emails)).flatten).Perm emails := by
  have h := fold_flatten emails []
  simpa [group_by_sender] using h

/-! #### C2: grouping is a partition -/

/-- C2: for every list of fetched emails, grouping by normalized sender
partitions the list: the per-group counts sum to the total, sender keys
are pairwise distinct, each count field equals the length of the group's
email sequence, every email lands in some group, and no email lies in two
different groups. -/
theorem group_partition (emails : List Email) :
    (((group_by_sender emails).map (fun g => g.count)).sum = emails.length) ∧
      ((group_by_sender emails).map (fun g => g.sender)).Nodup ∧
      (∀ g ∈ group_by_sender emails, g.count = g.emails.length) ∧
      (∀ e ∈ emails, ∃ g, g ∈ group_by_sender emails ∧ e ∈ g.emails) ∧
      (∀ g1 ∈ group_by_sender emails, ∀ g2 ∈ group_by_sender emails,
        ∀ e : Email, e ∈ g1.emails → e ∈ g2.emails → g1 = g2) := by
  obtain ⟨hnd, hcl, hms⟩ := group_by_sender_wf emails
  refine ⟨?_, hnd, hcl, ?_, ?_⟩
  · have h := fold_sum emails []
    simpa [group_by_sender] using h
  · intro e he
    exact fold_adds emails [] e he
  · intro g1 h1 g2 h2 e he1 he2
    have hs1 := hms g1 h1 e he1
    have hs2 := hms g2 h2 e he2
    have hss : g1.sender = g2.sender := by rw [← hs1, ← hs2]
    exact List.inj_on_of_nodup_map hnd h1 h2 hss

/-- C2 witness: the partition properties applied to a concrete run of
three emails from two senders. -/
theorem group_partition_witness :
    (((group_by_sender demoEmails).map (fun g => g.count)).sum = demoEmails.length) ∧
      (∃ g, g ∈ group_by_sender demoEmails ∧ demoEmail1 ∈ g.emails) :=
  ⟨(group_partition demoEmails).1,
   (group_partition demoEmails).2.2.2.1 demoEmail1 (by decide)⟩

/-! #### C9: presentation order of the review step -/

theorem insertDesc_perm (g : SenderGroup) : ∀ l : List SenderGroup,
    (insertDesc g l).Perm (g :: l)
  | [] => by simp [insertDesc]
  | h :: t => by
    by_cases hc : h.count ≤ g.count
    · simp [insertDesc, hc]
    · simp only [insertDesc, if_neg hc]
      exact ((insertDesc_perm g t).cons h).trans (List.Perm.swap g h t)

theorem insertDesc_sorted (g : SenderGroup) : ∀ l : List SenderGroup,
    l.Pairwise (fun a b => b.count ≤ a.count) →
    (insertDesc g l).Pairwise (fun a b => b.count ≤ a.count)
  | [], _ => by simp [insertDesc]
  | h :: t, hp => by
    rcases List.pairwise_cons.mp hp with ⟨hh, ht⟩
    by_cases hc : h.count ≤ g.count
    · simp only [insertDesc, if_pos hc]
      refine List.pairwise_cons.mpr ⟨?_, hp⟩
      intro b hb
      rcases List.mem_cons.mp hb with h1 | h1
      · subst h1
        exact hc
      · exact le_trans (hh b h1) hc
    · simp only [insertDesc, if_neg hc]
      refine List.pairwise_cons.mpr ⟨?_, insertDesc_sorted g t ht⟩
      intro b hb
      have hb2 := (insertDesc_perm g t).mem_iff.mp hb
      rcases List.mem_cons.mp hb2 with h1 | h1
      · subst h1
        omega
      · exact hh b h1

theorem sortByCountDesc_perm : ∀ l : List SenderGroup, (sortByCountDesc l).Perm l
  | [] => List.Perm.refl []
  | x :: xs => (insertDesc_perm x (sortByCountDesc xs)).trans ((sortByCountDesc_perm xs).cons x)

theorem sortByCountDesc_sorted : ∀ l : List SenderGroup,
    (sortByCountDesc l).Pairwise (fun a b => b.count ≤ a.count)
  | [] => List.Pairwise.nil
  | x :: xs => insertDesc_sorted x _ (sortByCountDesc_sorted xs)

theorem insertDesc_filter_ne (g : SenderGroup) (n : Nat) (hn : g.count ≠ n) :
    ∀ l : List SenderGroup,
    (insertDesc g l).filter (fun x => x.count == n) = l.filter (fun x => x.count == n)
  | [] => by simp [insertDesc, hn]
  | h :: t => by
    by_cases hc : h.count ≤ g.count
    · simp [insertDesc, hc, List.filter_cons, hn]
    · simp [insertDesc, hc, List.filter_cons, insertDesc_filter_ne g n hn t]

theorem insertDesc_filter_eq (g : SenderGroup) (n : Nat) (hn : g.count = n) :
    ∀ l : List SenderGroup,
    l.Pairwise (fun a b => b.count ≤ a.count) →
    (insertDesc g l).filter (fun x => x.count == n) = g :: l.filter (fun x => x.count == n)
  | [], _ => by simp [insertDesc, hn]
  | h :: t, hp => by
    rcases List.pairwise_cons.mp hp with ⟨_, ht⟩
    by_cases hc : h.count ≤ g.count
    · simp only [insertDesc, if_pos hc]
      simp [List.filter_cons, hn]
    · have hhn : h.count ≠ n := by omega
      simp only [insertDesc, if_neg hc]
      simp [List.filter_cons, hhn, insertDesc_filter_eq g n hn t ht]

theorem sortByCountDesc_stable (n : Nat) : ∀ l : List SenderGroup,
    (sortByCountDesc l).filter (fun x => x.count == n) = l.filter (fun x => x.count == n)
  | [] => rfl
  | x :: xs => by
    by_cases hx : x.count = n
    · rw [sortByCountDesc, insertDesc_filter_eq x n hx _ (sortByCountDesc_sorted xs),
        sortByCountDesc_stable n xs]
      simp [List.filter_cons, hx]
    · rw [sortByCountDesc, insertDesc_filter_ne x n hx _, sortByCountDesc_stable n xs]
      simp [List.filter_cons, hx]

/-- C9: the review step presents every sender group exactly once, in
descending order of message count, and groups of equal count keep their
original iteration order (stability). -/
theorem review_presentation_order (groups : List SenderGroup) :
    (presentationOrder groups).Perm groups ∧
      (presentationOrder groups).Pairwise (fun a b => b.count ≤ a.count) ∧
      ∀ n : Nat, (presentationOrder groups).filter (fun g => g.count == n) =
        groups.filter (fun g => g.count == n) :=
  ⟨sortByCountDesc_perm groups, sortByCountDesc_sorted groups,
   fun n => sortByCountDesc_stable n groups⟩

/-! #### C8: console decision inputs -/

theorem skipDelete_disjoint (c : String) : isDeleteInput c = true → isSkipInput c = false := by
  intro h
  simp only [isDeleteInput, Bool.or_eq_true, beq_iff_eq] at h
  rcases h with (((h | h) | h) | h) | h <;> subst h <;> decide

/-- C8 counterexample: the console input "x" is not a delete trigger, yet
it does not default the sender's decision to skip — the loop rejects it,
prints an error and re-prompts, producing no decision from that input. -/
theorem review_default_counterexample :
    isDeleteInput (normInput "x") = false ∧ reviewDecision ["x"] ≠ some Decision.skip := by
  decide

/-- C8 (amended): per sender the loop accepts exactly two kinds of input —
a delete trigger (d, delete, t, trash, remove after trim and lower-case)
assigns delete, and empty input or a skip trigger (skip, keep, k) assigns
skip; every other input is rejected and the loop re-prompts, so the
decision is whatever a later input produces. -/
theorem review_decision_amended (inp : String) (rest : List String) :
    (isSkipInput (normInput inp) = true → reviewDecision (inp :: rest) = some Decision.skip) ∧
      (isDeleteInput (normInput inp) = true →
        reviewDecision (inp :: rest) = some Decision.delete) ∧
      (isSkipInput (normInput inp) = false → isDeleteInput (normInput inp) = false →
        reviewDecision (inp :: rest) = reviewDecision rest) := by
  refine ⟨?_, ?_, ?_⟩
  · intro h
    simp [reviewDecision, h]
  · intro h
    have hs := skipDelete_disjoint (normInput inp) h
    simp [reviewDecision, h, hs]
  · intro h1 h2
    simp [reviewDecision, h1, h2]

/-- C8 witness: the amended characterization applied at the concrete
accepted input "d". -/
theorem review_decision_amended_witness :
    reviewDecision ["d"] = some Decision.delete :=
  (review_decision_amended "d" []).2.1 (by decide)

/-! #### Execute-trace machinery -/

theorem senderEvents_sender (groups : List SenderGroup) (trashOk : String → Bool)
    (s : String) : ∀ ev ∈ senderEvents groups trashOk s, evSender ev = s := by
  intro ev hev
  unfold senderEvents at hev
  cases hlook : lookupGroup groups s with
  | none =>
    rw [hlook] at hev
    simp at hev
  | some g =>
    rw [hlook] at hev
    rcases List.mem_append.mp hev with h | h
    · obtain ⟨e, _, he⟩ := List.mem_map.mp h
      rw [← he]
      rfl
    · obtain ⟨e, _, he⟩ := List.mem_map.mp h
      rw [← he]
      rfl

theorem execTrace_no_sender (groups : List SenderGroup) (trashOk : String → Bool)
    (S : String) : ∀ ds : List (String × Decision), S ∉ ds.map Prod.fst →
    ∀ ev ∈ execTrace groups trashOk ds, evSender ev ≠ S
  | [], _, ev, hev => by simp [execTrace] at hev
  | (s, d) :: rest, hS, ev, hev => by
    have hs : s ≠ S := by
      intro he
      exact hS (by simp [he])
    have hrest : S ∉ rest.map Prod.fst := by
      intro hm
      exact hS (by simp [hm])
    simp only [execTrace] at hev
    rcases List.mem_append.mp hev with h | h
    · by_cases hd : d = Decision.delete
      · rw [if_pos hd] at h
        rw [senderEvents_sender groups trashOk s ev h]
        exact hs
      · rw [if_neg hd] at h
        simp at h
    · exact execTrace_no_sender groups trashOk S rest hrest ev h

theorem isTrashFor_sender {S : String} {ev : ExecEvent} (h : isTrashFor S ev = true) :
    evSender ev = S := by
  cases ev with
  | save f s => simp [isTrashFor] at h
  | trashCall i s ok =>
    simp only [isTrashFor, beq_iff_eq] at h
    exact h

theorem isTrashFor_not_save {S : String} {ev : ExecEvent} (h : isTrashFor S ev = true) :
    isSaveFor S ev = false := by
  cases ev with
  | save f s => simp [isTrashFor] at h
  | trashCall i s ok => rfl

theorem not_sender_not_save {S : String} {ev : ExecEvent} (h : evSender ev ≠ S) :
    isSaveFor S ev = false := by
  cases ev with
  | save f s =>
    simp only [evSender] at h
    simp [isSaveFor, h]
  | trashCall i s ok => rfl

theorem not_sender_not_trash {S : String} {ev : ExecEvent} (h : evSender ev ≠ S) :
    isTrashFor S ev = false := by
  cases ev with
  | save f s => rfl
  | trashCall i s ok =>
    simp only [evSender] at h
    simp [isTrashFor, h]

theorem countSaves_senderEvents_self (groups : List SenderGroup) (trashOk : String → Bool)
    (S : String) (g : SenderGroup) (hg : lookupGroup groups S = some g) :
    (senderEvents groups trashOk S).countP (isSaveFor S) = g.emails.length := by
  unfold senderEvents
  rw [hg, List.countP_append, List.countP_map, List.countP_map]
  have h1 : (isSaveFor S ∘ fun e => ExecEvent.save (fname e (safeSender S)) S) =
      fun (_ : Email) => true := by
    funext e
    simp [isSaveFor, Function.comp]
  have h2 : (isSaveFor S ∘ fun (e : Email) => ExecEvent.trashCall e.id S (trashOk e.id)) =
      fun (_ : Email) => false := by
    funext e
    simp [isSaveFor, Function.comp]
  rw [h1, h2]
  simp

theorem countSaves_senderEvents_other (groups : List SenderGroup) (trashOk : String → Bool)
    {S s : String} (h : s ≠ S) :
    (senderEvents groups trashOk s).countP (isSaveFor S) = 0 := by
  rw [List.countP_eq_zero]
  intro ev hev
  have hs := senderEvents_sender groups trashOk s ev hev
  have hne : evSender ev ≠ S := by
    rw [hs]
    exact h
  simp [not_sender_not_save hne]

theorem countSaves_trace (groups : List SenderGroup) (trashOk : String → Bool)
    (S : String) (g : SenderGroup) (hg : lookupGroup groups S = some g) :
    ∀ ds : List (String × Decision), (ds.map Prod.fst).Nodup →
    (S, Decision.delete) ∈ ds →
    (execTrace groups trashOk ds).countP (isSaveFor S) = g.emails.length
  | [], _, hmem => by simp at hmem
  | (s, d) :: rest, hkeys, hmem => by
    simp only [List.map_cons] at hkeys
    have hk := List.nodup_cons.mp hkeys
    simp only [execTrace, List.countP_append]
    by_cases hs : s = S
    · subst hs
      have hd : d = Decision.delete := by
        rcases List.mem_cons.mp hmem with h1 | h1
        · exact (congrArg Prod.snd h1).symm
        · exact absurd (List.mem_map_of_mem Prod.fst h1) hk.1
      subst hd
      rw [if_pos rfl, countSaves_senderEvents_self groups trashOk s g hg]
      have hzero : (execTrace groups trashOk rest).countP (isSaveFor s) = 0 := by
        rw [List.countP_eq_zero]
        intro ev hev
        have hne := execTrace_no_sender groups trashOk s rest hk.1 ev hev
        simp [not_sender_not_save hne]
      omega
    · have hblock :
          (if d = Decision.delete then senderEvents groups trashOk s else []).countP
            (isSaveFor S) = 0 := by
        by_cases hd : d = Decision.delete
        · rw [if_pos hd]
          exact countSaves_senderEvents_other groups trashOk hs
        · rw [if_neg hd]
          rfl
      have hmem2 : (S, Decision.delete) ∈ rest := by
        rcases List.mem_cons.mp hmem with h1 | h1
        · exact absurd (congrArg Prod.fst h1).symm hs
        · exact h1
      rw [hblock, countSaves_trace groups trashOk S g hg rest hk.2 hmem2]
      omega

theorem pairwise_no_trash {S : String} {l : List ExecEvent}
    (h : ∀ a ∈ l, isTrashFor S a = false) :
    l.Pairwise (fun a b => isTrashFor S a = true → isSaveFor S b = false) := by
  induction l with
  | nil => exact List.Pairwise.nil
  | cons x xs ih =>
    refine List.pairwise_cons.mpr ⟨?_, ih (fun a ha => h a (List.mem_cons_of_mem x ha))⟩
    intro b _ hx
    rw [h x (List.mem_cons_self x xs)] at hx
    exact absurd hx (by simp)

theorem pairwise_no_save {S : String} {l : List ExecEvent}
    (h : ∀ b ∈ l, isSaveFor S b = false) :
    l.Pairwise (fun a b => isTrashFor S a = true → isSaveFor S b = false) := by
  induction l with
  | nil => exact List.Pairwise.nil
  | cons x xs ih =>
    refine List.pairwise_cons.mpr
      ⟨fun b hb _ => h b (List.mem_cons_of_mem x hb),
       ih (fun b hb => h b (List.mem_cons_of_mem x hb))⟩

theorem senderEvents_pairwise (groups : List SenderGroup) (trashOk : String → Bool)
    (S s : String) :
    (senderEvents groups trashOk s).Pairwise
      (fun a b => isTrashFor S a = true → isSaveFor S b = false) := by
  unfold senderEvents
  cases hlook : lookupGroup groups s with
  | none => exact List.Pairwise.nil
  | some g =>
    rw [List.pairwise_append]
    refine ⟨?_, ?_, ?_⟩
    · refine pairwise_no_trash ?_
      intro a ha
      obtain ⟨e, _, he⟩ := List.mem_map.mp ha
      rw [← he]
      rfl
    · refine pairwise_no_save ?_
      intro b hb
      obtain ⟨e, _, he⟩ := List.mem_map.mp hb
      rw [← he]
      rfl
    · intro a ha b _ hta
      obtain ⟨e, _, he⟩ := List.mem_map.mp ha
      rw [← he] at hta
      exact absurd hta (by simp [isTrashFor])

theorem execTrace_pairwise (groups : List SenderGroup) (trashOk : String → Bool)
    (S : String) : ∀ ds : List (String × Decision), (ds.map Prod.fst).Nodup →
    (execTrace groups trashOk ds).Pairwise
      (fun a b => isTrashFor S a = true → isSaveFor S b = false)
  | [], _ => by
    simp only [execTrace]
    exact List.Pairwise.nil
  | (s, d) :: rest, hkeys => by
    simp only [List.map_cons] at hkeys
    have hk := List.nodup_cons.mp hkeys
    simp only [execTrace]
    rw [List.pairwise_append]
    refine ⟨?_, execTrace_pairwise groups trashOk S rest hk.2, ?_⟩
    · by_cases hd : d = Decision.delete
      · rw [if_pos hd]
        exact senderEvents_pairwise groups trashOk S s
      · rw [if_neg hd]
        exact List.Pairwise.nil
    · intro a ha b hb hta
      by_cases hd : d = Decision.delete
      · rw [if_pos hd] at ha
        have hsa := senderEvents_sender groups trashOk s a ha
        have hSs : s = S := by
          rw [← hsa]
          exact (isTrashFor_sender hta).symm ▸ rfl
        have hSrest : S ∉ rest.map Prod.fst := hSs ▸ hk.1
        exact not_sender_not_save (execTrace_no_sender groups trashOk S rest hSrest b hb)
      · rw [if_neg hd] at ha
        simp at ha

/-! #### C1: save-before-trash ordering -/

/-- C1: in every run, at the moment any trash call for a delete-marked
sender S is issued, the number of save events already performed for S
equals S's group count — no message of S is ever trashed without all of
S's messages having been archived first. -/
theorem save_before_trash (emails : List Email) (trashOk : String → Bool)
    (decisions : List (String × Decision)) (S : String) (g : SenderGroup)
    (hkeys : (decisions.map Prod.fst).Nodup)
    (hmem : (S, Decision.delete) ∈ decisions)
    (hg : lookupGroup (group_by_sender emails) S = some g)
    (pre : List ExecEvent) (ev : ExecEvent) (post : List ExecEvent)
    (hsplit : execTrace (group_by_sender emails) trashOk decisions = pre ++ ev :: post)
    (hev : isTrashFor S ev = true) :
    pre.countP (isSaveFor S) = g.count := by
  have hcount :=
    countSaves_trace (group_by_sender emails) trashOk S g hg decisions hkeys hmem
  have hpw := execTrace_pairwise (group_by_sender emails) trashOk S decisions hkeys
  rw [hsplit] at hcount hpw
  rw [List.countP_append] at hcount
  have htail := (List.pairwise_append.mp hpw).2.1
  have hpost := (List.pairwise_cons.mp htail).1
  have hzero : (ev :: post).countP (isSaveFor S) = 0 := by
    rw [List.countP_eq_zero]
    intro a ha
    rcases List.mem_cons.mp ha with h1 | h1
    · subst h1
      simp [isTrashFor_not_save hev]
    · simp [hpost a h1 hev]
  have hgm : g ∈ group_by_sender emails := List.mem_of_find?_eq_some hg
  have hlen : g.count = g.emails.length := (group_by_sender_wf emails).2.1 g hgm
  omega

/-- C1 witness: in the concrete demo run, at the first trash call for the
delete-marked sender a@x.com both of its messages have been saved. -/
theorem save_before_trash_witness :
    ([ExecEvent.save "id1_a_x_com.json" "a@x.com",
      ExecEvent.save "id3_a_x_com.json" "a@x.com"].countP (isSaveFor "a@x.com")) = 2 :=
  save_before_trash demoEmails (fun _ => true) demoDecisions "a@x.com"
    { sender := "a@x.com", emails := [demoEmail1, demoEmail3], count := 2 }
    (by decide) (by decide) (by decide)
    [ExecEvent.save "id1_a_x_com.json" "a@x.com",
     ExecEvent.save "id3_a_x_com.json" "a@x.com"]
    (ExecEvent.trashCall "id1" "a@x.com" true)
    [ExecEvent.trashCall "id3" "a@x.com" true]
    (by decide) (by decide)

/-! #### C4: absent sender behaves as skip -/

theorem execTrace_skip_insensitive (groups : List SenderGroup) (trashOk : String → Bool)
    (S : String) : ∀ (ds1 ds2 : List (String × Decision)),
    execTrace groups trashOk (ds1 ++ (S, Decision.skip) :: ds2) =
      execTrace groups trashOk (ds1 ++ ds2)
  | [], ds2 => by simp [execTrace]
  | (s, d) :: ds1, ds2 => by
    simp only [List.cons_append, execTrace, List.append_eq]
    rw [execTrace_skip_insensitive groups trashOk S ds1 ds2]

theorem allTrashIds_origin (groups : List SenderGroup) (trashOk : String → Bool) :
    ∀ (ds : List (String × Decision)) (x : String),
    x ∈ allTrashIds (execTrace groups trashOk ds) →
    ∃ s g e, (s, Decision.delete) ∈ ds ∧ lookupGroup groups s = some g ∧
      e ∈ g.emails ∧ e.id = x
  | [], x, hx => by simp [execTrace, allTrashIds] at hx
  | (s, d) :: rest, x, hx => by
    simp only [execTrace, allTrashIds, List.filterMap_append] at hx
    rcases List.mem_append.mp hx with h | h
    · by_cases hd : d = Decision.delete
      · rw [if_pos hd] at h
        subst hd
        obtain ⟨ev, hev, hfx⟩ := List.mem_filterMap.mp h
        unfold senderEvents at hev
        cases hlook : lookupGroup groups s with
        | none =>
          rw [hlook] at hev
          simp at hev
        | some g =>
          rw [hlook] at hev
          rcases List.mem_append.mp hev with h2 | h2
          · obtain ⟨e, _, he⟩ := List.mem_map.mp h2
            rw [← he] at hfx
            simp at hfx
          · obtain ⟨e, hem, he⟩ := List.mem_map.mp h2
            rw [← he] at hfx
            simp only [Option.some.injEq] at hfx
            exact ⟨s, g, e, List.mem_cons_self _ _, hlook, hem, hfx⟩
      · rw [if_neg hd] at h
        simp at h
    · obtain ⟨s2, g2, e2, hmem, hlook, he2, hid⟩ := allTrashIds_origin groups trashOk rest x h
      exact ⟨s2, g2, e2, List.mem_cons_of_mem _ hmem, hlook, he2, hid⟩

theorem lookupGroup_split (S : String) : ∀ (groups : List SenderGroup) (g : SenderGroup),
    lookupGroup groups S = some g →
    g.sender = S ∧ ∃ A B, groups = A ++ g :: B ∧ ∀ a ∈ A, a.sender ≠ S
  | [], g, h => by simp [lookupGroup] at h
  | g0 :: gs, g, h => by
    by_cases h0 : g0.sender = S
    · have heq : lookupGroup (g0 :: gs) S = some g0 := by
        simp [lookupGroup, List.find?_cons, h0]
      rw [heq] at h
      simp only [Option.some.injEq] at h
      subst h
      exact ⟨h0, [], gs, rfl, by simp⟩
    · have hstep : lookupGroup (g0 :: gs) S = lookupGroup gs S := by
        simp [lookupGroup, List.find?_cons, h0]
      rw [hstep] at h
      obtain ⟨hs, A, B, hsp, hA⟩ := lookupGroup_split S gs g h
      refine ⟨hs, g0 :: A, B, by rw [hsp]; rfl, ?_⟩
      intro a ha
      rcases List.mem_cons.mp ha with h1 | h1
      · subst h1
        exact h0
      · exact hA a h1

theorem group_ids_disjoint (emails : List Email)
    (hids : (emails.map (fun e => e.id)).Nodup)
    (A B : List SenderGroup) (g g2 : SenderGroup)
    (hsplit : group_by_sender emails = A ++ g :: B)
    (hg2 : g2 ∈ A ∨ g2 ∈ B) :
    ∀ x, x ∈ g.emails.map (fun e => e.id) → x ∈ g2.emails.map (fun e => e.id) → False := by
  have hperm := group_by_sender_flatten emails
  have hidsperm := hperm.map (fun e => e.id)
  have hnd : ((((group_by_sender emails).map (fun gr => gr.emails)).flatten).map
      (fun e => e.id)).Nodup := hidsperm.symm.nodup hids
  rw [List.map_flatten, List.map_map] at hnd
  have hpair := (List.nodup_flatten.mp hnd).2
  rw [hsplit, List.map_append, List.map_cons] at hpair
  rw [List.pairwise_append] at hpair
  obtain ⟨_, hcons, hcross⟩ := hpair
  rcases hg2 with h2 | h2
  · have hd := hcross _ (List.mem_map_of_mem _ h2) _ (List.mem_cons_self _ _)
    intro x hx hx2
    exact hd hx2 hx
  · have hd := (List.pairwise_cons.mp hcons).1 _ (List.mem_map_of_mem _ h2)
    intro x hx hx2
    exact hd hx hx2

/-- C4: a sender absent from the decisions mapping behaves in the execute
step exactly like one explicitly mapped to skip: inserting an explicit
(S, skip) entry leaves the event trace unchanged, an absent sender
produces no save and no trash event, and the messages of a sender with no
delete entry receive no trash call at all. -/
theorem absent_equals_skip :
    (∀ (groups : List SenderGroup) (trashOk : String → Bool)
      (ds1 ds2 : List (String × Decision)) (S : String),
      execTrace groups trashOk (ds1 ++ (S, Decision.skip) :: ds2) =
        execTrace groups trashOk (ds1 ++ ds2)) ∧
      (∀ (groups : List SenderGroup) (trashOk : String → Bool)
        (ds : List (String × Decision)) (S : String), S ∉ ds.map Prod.fst →
        ∀ ev ∈ execTrace groups trashOk ds, evSender ev ≠ S) ∧
      (∀ (emails : List Email) (trashOk : String → Bool)
        (ds : List (String × Decision)) (S : String) (g : SenderGroup),
        (emails.map (fun e => e.id)).Nodup →
        lookupGroup (group_by_sender emails) S = some g →
        (S, Decision.delete) ∉ ds →
        ∀ e ∈ g.emails, e.id ∉ allTrashIds (execTrace (group_by_sender emails) trashOk ds)) := by
  refine ⟨fun groups trashOk ds1 ds2 S => execTrace_skip_insensitive groups trashOk S ds1 ds2,
    fun groups trashOk ds S h => execTrace_no_sender groups trashOk S ds h, ?_⟩
  intro emails trashOk ds S g hids hg hnd e he hx
  obtain ⟨s2, g2, e2, hmem, hlook2, he2, hid⟩ :=
    allTrashIds_origin (group_by_sender emails) trashOk ds e.id hx
  have hs2 : s2 ≠ S := fun heq => hnd (heq ▸ hmem)
  obtain ⟨hgs, A, B, hsp, _⟩ := lookupGroup_split S (group_by_sender emails) g hg
  have hg2mem : g2 ∈ group_by_sender emails := List.mem_of_find?_eq_some hlook2
  have hg2s : g2.sender = s2 := (lookupGroup_split s2 (group_by_sender emails) g2 hlook2).1
  have hneq : g2 ≠ g := by
    intro heq
    apply hs2
    rw [← hg2s, heq, hgs]
  have hg2AB : g2 ∈ A ∨ g2 ∈ B := by
    rw [hsp] at hg2mem
    rcases List.mem_append.mp hg2mem with h1 | h1
    · exact Or.inl h1
    · rcases List.mem_cons.mp h1 with h2 | h2
      · exact absurd h2 hneq
      · exact Or.inr h2
  exact group_ids_disjoint emails hids A B g g2 hsp hg2AB e.id
    (List.mem_map_of_mem _ he) (hid ▸ List.mem_map_of_mem _ he2)

/-- C4 witness: in the concrete demo run, an explicit skip entry for
b@y.com yields the same trace as no entry, and with only a@x.com marked
delete, b@y.com's message receives no trash call. -/
theorem absent_equals_skip_witness :
    execTrace (group_by_sender demoEmails) (fun _ => true)
        ([] ++ ("b@y.com", Decision.skip) :: []) =
      execTrace (group_by_sender demoEmails) (fun _ => true) ([] ++ []) ∧
      demoEmail2.id ∉ allTrashIds (execTrace (group_by_sender demoEmails) (fun _ => true)
        [("a@x.com", Decision.delete)]) :=
  ⟨absent_equals_skip.1 (group_by_sender demoEmails) (fun _ => true) [] [] "b@y.com",
   absent_equals_skip.2.2 demoEmails (fun _ => true) [("a@x.com", Decision.delete)]
     "b@y.com" { sender := "b@y.com", emails := [demoEmail2], count := 1 }
     (by decide) (by decide) (by decide) demoEmail2 (by decide)⟩

/-! #### C5: per-message trash failure -/

theorem trashedIds_ok (groups : List SenderGroup) (trashOk : String → Bool) :
    ∀ (ds : List (String × Decision)) (x : String),
    x ∈ trashedIds (execTrace groups trashOk ds) → trashOk x = true
  | [], x, hx => by simp [execTrace, trashedIds] at hx
  | (s, d) :: rest, x, hx => by
    simp only [execTrace, trashedIds, List.filterMap_append] at hx
    rcases List.mem_append.mp hx with h | h
    · by_cases hd : d = Decision.delete
      · rw [if_pos hd] at h
        obtain ⟨ev, hev, hfx⟩ := List.mem_filterMap.mp h
        unfold senderEvents at hev
        cases hlook : lookupGroup groups s with
        | none =>
          rw [hlook] at hev
          simp at hev
        | some g =>
          rw [hlook] at hev
          rcases List.mem_append.mp hev with h2 | h2
          · obtain ⟨e, _, he⟩ := List.mem_map.mp h2
            rw [← he] at hfx
            simp at hfx
          · obtain ⟨e, _, he⟩ := List.mem_map.mp h2
            rw [← he] at hfx
            cases ht : trashOk e.id with
            | false =>
              rw [ht] at hfx
              simp at hfx
            | true =>
              rw [ht] at hfx
              simp only [if_pos, Option.some.injEq] at hfx
              rw [← hfx]
              exact ht
      · rw [if_neg hd] at h
        simp at h
    · exact trashedIds_ok groups trashOk rest x h

theorem savedPaths_mem (groups : List SenderGroup) (trashOk : String → Bool) :
    ∀ (ds : List (String × Decision)) (S : String) (g : SenderGroup) (e : Email),
    (S, Decision.delete) ∈ ds → lookupGroup groups S = some g → e ∈ g.emails →
    fname e (safeSender S) ∈ savedPaths (execTrace groups trashOk ds)
  | [], S, g, e, hmem, _, _ => by simp at hmem
  | (s, d) :: rest, S, g, e, hmem, hg, he => by
    simp only [execTrace, savedPaths, List.filterMap_append]
    rcases List.mem_cons.mp hmem with h1 | h1
    · have hs : s = S := (congrArg Prod.fst h1).symm
      have hd : d = Decision.delete := (congrArg Prod.snd h1).symm
      subst hs
      subst hd
      apply List.mem_append.mpr
      left
      rw [if_pos rfl]
      unfold senderEvents
      rw [hg]
      apply List.mem_filterMap.mpr
      refine ⟨ExecEvent.save (fname e (safeSender s)) s, ?_, rfl⟩
      exact List.mem_append.mpr (Or.inl (List.mem_map_of_mem _ he))
    · apply List.mem_append.mpr
      right
      have := savedPaths_mem groups trashOk rest S g e h1 hg he
      simpa [savedPaths] using this

theorem trashed_mem (groups : List SenderGroup) (trashOk : String → Bool) :
    ∀ (ds : List (String × Decision)) (S : String) (g : SenderGroup) (e : Email),
    (S, Decision.delete) ∈ ds → lookupGroup groups S = some g → e ∈ g.emails →
    trashOk e.id = true → e.id ∈ trashedIds (execTrace groups trashOk ds)
  | [], S, g, e, hmem, _, _, _ => by simp at hmem
  | (s, d) :: rest, S, g, e, hmem, hg, he, ht => by
    simp only [execTrace, trashedIds, List.filterMap_append]
    rcases List.mem_cons.mp hmem with h1 | h1
    · have hs : s = S := (congrArg Prod.fst h1).symm
      have hd : d = Decision.delete := (congrArg Prod.snd h1).symm
      subst hs
      subst hd
      apply List.mem_append.mpr
      left
      rw [if_pos rfl]
      unfold senderEvents
      rw [hg]
      apply List.mem_filterMap.mpr
      refine ⟨ExecEvent.trashCall e.id s (trashOk e.id), ?_, by simp [ht]⟩
      exact List.mem_append.mpr (Or.inr (List.mem_map_of_mem _ he))
    · apply List.mem_append.mpr
      right
      have := trashed_mem groups trashOk rest S g e h1 hg he ht
      simpa [trashedIds] using this

/-- C5: a failed trash call for one message of a delete-marked sender is
skipped: its id never enters the trashed-ids list, its already-written
archive file is still among the saved paths, and every other message of
any delete-marked sender whose trash call succeeds is still trashed. -/
theorem trash_failure_skipped (groups : List SenderGroup) (trashOk : String → Bool)
    (ds : List (String × Decision)) (S : String) (g : SenderGroup) (e : Email)
    (hmem : (S, Decision.delete) ∈ ds)
    (hg : lookupGroup groups S = some g)
    (he : e ∈ g.emails)
    (hfail : trashOk e.id = false) :
    e.id ∉ trashedIds (execTrace groups trashOk ds) ∧
      fname e (safeSender S) ∈ savedPaths (execTrace groups trashOk ds) ∧
      ∀ (S2 : String) (g2 : SenderGroup) (e2 : Email),
        (S2, Decision.delete) ∈ ds → lookupGroup groups S2 = some g2 → e2 ∈ g2.emails →
        trashOk e2.id = true → e2.id ∈ trashedIds (execTrace groups trashOk ds) := by
  refine ⟨?_, savedPaths_mem groups trashOk ds S g e hmem hg he, ?_⟩
  · intro hx
    have hok := trashedIds_ok groups trashOk ds e.id hx
    rw [hfail] at hok
    exact absurd hok (by simp)
  · intro S2 g2 e2 h1 h2 h3 h4
    exact trashed_mem groups trashOk ds S2 g2 e2 h1 h2 h3 h4

/-- C5 witness: in the demo run with the trash call for id1 failing, id1
is not trashed, its archive file is saved, and id3 is still trashed. -/
theorem trash_failure_skipped_witness :
    "id1" ∉ trashedIds (execTrace (group_by_sender demoEmails) (fun i => i != "id1")
        [("a@x.com", Decision.delete)]) ∧
      "id1_a_x_com.json" ∈ savedPaths (execTrace (group_by_sender demoEmails)
        (fun i => i != "id1") [("a@x.com", Decision.delete)]) ∧
      "id3" ∈ trashedIds (execTrace (group_by_sender demoEmails) (fun i => i != "id1")
        [("a@x.com", Decision.delete)]) := by
  have h := trash_failure_skipped (group_by_sender demoEmails) (fun i => i != "id1")
    [("a@x.com", Decision.delete)] "a@x.com"
    { sender := "a@x.com", emails := [demoEmail1, demoEmail3], count := 2 }
    demoEmail1 (by decide) (by decide) (by decide) (by decide)
  exact ⟨h.1, h.2.1,
    h.2.2 "a@x.com" { sender := "a@x.com", emails := [demoEmail1, demoEmail3], count := 2 }
      demoEmail3 (by decide) (by decide) (by decide) (by decide)⟩

/-! #### C6: listing failure aborts the fetch -/

/-- C6: when the message-listing call fails, the fetch stage yields the
empty email list for the whole run — no partial results and no retry,
regardless of how the per-message calls or the decoder would behave. -/
theorem listing_error_empty (er : HttpError) (getMsg : String → Except HttpError Msg)
    (decode : String → Option String) :
    fetch_emails (Except.error er) getMsg decode = [] := rfl

/-! #### C7: decode failure yields the sentinel preview -/

theorem mkPreview_decode_error (decode : String → Option String) (b : String)
    (hb : b ≠ "") (hd : decode b = none) : mkPreview decode b = "[decode error]" := by
  unfold mkPreview
  rw [if_neg hb, hd]

theorem fetchLoop_ok (getMsg : String → Except HttpError Msg)
    (decode : String → Option String) :
    ∀ ids : List String, (∀ mid ∈ ids, ∃ m, getMsg mid = Except.ok m) →
    ∃ es, fetchLoop getMsg decode ids = Except.ok es ∧ es.length = ids.length ∧
      ∀ mid m, mid ∈ ids → getMsg mid = Except.ok m → mkEmail decode mid m ∈ es
  | [], _ => ⟨[], rfl, rfl, by simp⟩
  | mid :: ids, hok => by
    obtain ⟨m, hm⟩ := hok mid (List.mem_cons_self _ _)
    obtain ⟨es, hes, hlen, hmem⟩ := fetchLoop_ok getMsg decode ids
      (fun mid2 h2 => hok mid2 (List.mem_cons_of_mem _ h2))
    refine ⟨mkEmail decode mid m :: es, ?_, by simp [hlen], ?_⟩
    · simp only [fetchLoop]
      rw [hm, hes]
    · intro mid2 m2 hmem2 hm2
      rcases List.mem_cons.mp hmem2 with h1 | h1
      · subst h1
        rw [hm] at hm2
        simp only [Except.ok.injEq] at hm2
        subst hm2
        exact List.mem_cons_self _ _
      · exact List.mem_cons_of_mem _ (hmem mid2 m2 h1 hm2)

/-- C7: when every per-message get succeeds, a malformed base64 body never
aborts the fetch stage: the run completes with one email per listed id,
and each email whose body fails to decode carries the literal sentinel
preview "[decode error]". -/
theorem decode_error_sentinel (ids : List String) (getMsg : String → Except HttpError Msg)
    (decode : String → Option String)
    (hok : ∀ mid ∈ ids, ∃ m, getMsg mid = Except.ok m) :
    (fetch_emails (Except.ok ids) getMsg decode).length = ids.length ∧
      ∀ mid m, mid ∈ ids → getMsg mid = Except.ok m → bodyB64 m.payload ≠ "" →
        decode (bodyB64 m.payload) = none →
        ∃ e, e ∈ fetch_emails (Except.ok ids) getMsg decode ∧ e.id = mid ∧
          e.preview = "[decode error]" := by
  obtain ⟨es, hes, hlen, hmem⟩ := fetchLoop_ok getMsg decode ids hok
  have hfe : fetch_emails (Except.ok ids) getMsg decode = es := by
    have hred : fetch_emails (Except.ok ids) getMsg decode =
        (match fetchLoop getMsg decode ids with
         | Except.error _ => []
         | Except.ok es2 => es2) := rfl
    rw [hred, hes]
  refine ⟨by rw [hfe]; exact hlen, ?_⟩
  intro mid m hmid hm hb hd
  refine ⟨mkEmail decode mid m, by rw [hfe]; exact hmem mid m hmid hm, rfl, ?_⟩
  show mkPreview decode (bodyB64 m.payload) = "[decode error]"
  exact mkPreview_decode_error decode _ hb hd

/-- C7 witness: fetching the single message m1 whose body "!!!" fails to
decode still completes, and the fetched email carries the sentinel. -/
theorem decode_error_sentinel_witness :
    (fetch_emails (Except.ok ["m1"]) (fun _ => Except.ok demoMsg) (fun _ => none)).length = 1 ∧
      ∃ e, e ∈ fetch_emails (Except.ok ["m1"]) (fun _ => Except.ok demoMsg) (fun _ => none) ∧
        e.id = "m1" ∧ e.preview = "[decode error]" := by
  have h := decode_error_sentinel ["m1"] (fun _ => Except.ok demoMsg) (fun _ => none)
    (fun mid _ => ⟨demoMsg, rfl⟩)
  exact ⟨h.1, h.2 "m1" demoMsg (by decide) rfl (by decide) rfl⟩

/-! #### C10: distinctness of archive filenames -/

theorem filterMap_saves (s safe : String) : ∀ l : List Email,
    ((l.map (fun e => ExecEvent.save (fname e safe) s)).filterMap fun ev =>
      match ev with
      | ExecEvent.save f _ => some f
      | ExecEvent.trashCall _ _ _ => none) = l.map (fun e => fname e safe)
  | [] => rfl
  | e :: l => by
    simp only [List.map_cons, List.filterMap_cons]
    rw [filterMap_saves s safe l]

theorem filterMap_trashes (s : String) (trashOk : String → Bool) : ∀ l : List Email,
    ((l.map (fun e => ExecEvent.trashCall e.id s (trashOk e.id))).filterMap fun ev =>
      match ev with
      | ExecEvent.save f _ => some f
      | ExecEvent.trashCall _ _ _ => none) = []
  | [] => rfl
  | e :: l => by
    simp only [List.map_cons, List.filterMap_cons]
    exact filterMap_trashes s trashOk l

theorem savedPaths_eq_pairs (groups : List SenderGroup) (trashOk : String → Bool) :
    ∀ ds : List (String × Decision),
    savedPaths (execTrace groups trashOk ds) =
      (savedPairs groups ds).map (fun p => fname p.2 (safeSender p.1))
  | [] => rfl
  | (s, d) :: rest => by
    simp only [execTrace, savedPairs, savedPaths, List.filterMap_append, List.map_append]
    have hrec := savedPaths_eq_pairs groups trashOk rest
    simp only [savedPaths] at hrec
    rw [hrec]
    congr 1
    by_cases hd : d = Decision.delete
    · rw [if_pos hd, if_pos hd]
      unfold senderEvents
      cases hlook : lookupGroup groups s with
      | none => rfl
      | some g =>
        rw [List.filterMap_append, filterMap_saves, filterMap_trashes]
        simp [List.map_map, Function.comp]
    · rw [if_neg hd, if_neg hd]
      rfl

theorem lookupGroup_cons (x : SenderGroup) (l : List SenderGroup) (s2 : String) :
    lookupGroup (x :: l) s2 = if x.sender = s2 then some x else lookupGroup l s2 := by
  by_cases h : x.sender = s2
  · simp [lookupGroup, List.find?_cons, h]
  · simp [lookupGroup, List.find?_cons, h]

theorem lookupGroup_skip_mid (g : SenderGroup) (s2 : String) (hne : g.sender ≠ s2) :
    ∀ (A B : List SenderGroup),
    lookupGroup (A ++ g :: B) s2 = lookupGroup (A ++ B) s2
  | [], B => by
    simp only [List.nil_append]
    rw [lookupGroup_cons, if_neg hne]
  | g0 :: A, B => by
    simp only [List.cons_append]
    rw [lookupGroup_cons, lookupGroup_cons, lookupGroup_skip_mid g s2 hne A B]

theorem savedPairs_erase (A B : List SenderGroup) (g : SenderGroup) :
    ∀ ds : List (String × Decision), (∀ p ∈ ds, p.1 ≠ g.sender) →
    savedPairs (A ++ g :: B) ds = savedPairs (A ++ B) ds
  | [], _ => rfl
  | (s, d) :: rest, h => by
    have hs : s ≠ g.sender := h (s, d) (List.mem_cons_self _ _)
    have hlook : lookupGroup (A ++ g :: B) s = lookupGroup (A ++ B) s :=
      lookupGroup_skip_mid g s (fun he => hs he.symm) A B
    simp only [savedPairs, hlook,
      savedPairs_erase A B g rest (fun p hp => h p (List.mem_cons_of_mem _ hp))]

theorem subperm_map {α β : Type} (f : α → β) {l1 l2 : List α} (h : l1.Subperm l2) :
    (l1.map f).Subperm (l2.map f) := by
  obtain ⟨u, hu, hs⟩ := h
  exact ⟨u.map f, hu.map f, hs.map f⟩

theorem subperm_nodup {α : Type} {l1 l2 : List α} (h : l1.Subperm l2) (h2 : l2.Nodup) :
    l1.Nodup := by
  obtain ⟨u, hu, hs⟩ := h
  exact hu.nodup (List.Nodup.sublist hs h2)

theorem savedPairs_snd_subperm :
    ∀ (ds : List (String × Decision)) (groups : List SenderGroup),
    (ds.map Prod.fst).Nodup →
    ((savedPairs groups ds).map Prod.snd).Subperm ((groups.map (fun g => g.emails)).flatten)
  | [], groups, _ => by
    simp only [savedPairs, List.map_nil]
    exact List.nil_subperm
  | (s, d) :: rest, groups, hkeys => by
    simp only [List.map_cons] at hkeys
    have hk := List.nodup_cons.mp hkeys
    simp only [savedPairs, List.map_append]
    by_cases hd : d = Decision.delete
    · rw [if_pos hd]
      cases hlook : lookupGroup groups s with
      | none =>
        simp only [List.map_nil, List.nil_append]
        exact savedPairs_snd_subperm rest groups hk.2
      | some g =>
        obtain ⟨hgs, A, B, hsp, _⟩ := lookupGroup_split s groups g hlook
        have hrest_ne : ∀ p ∈ rest, p.1 ≠ g.sender := by
          intro p hp heq
          apply hk.1
          have hmm := List.mem_map_of_mem Prod.fst hp
          rw [heq, hgs] at hmm
          exact hmm
        have hsp_rest : savedPairs groups rest = savedPairs (A ++ B) rest := by
          rw [hsp]
          exact savedPairs_erase A B g rest hrest_ne
        have ih := savedPairs_snd_subperm rest (A ++ B) hk.2
        rw [hsp_rest]
        have hfst : (g.emails.map (fun e => (s, e))).map Prod.snd = g.emails := by
          simp [List.map_map, Function.comp]
        rw [hfst, hsp]
        refine List.Subperm.trans ((List.subperm_append_left g.emails).mpr ih)
          (List.Perm.subperm ?_)
        simp only [List.map_append, List.map_cons, List.flatten_append, List.flatten_cons]
        have hp0 : (g.emails ++ (A.map (fun g => g.emails)).flatten).Perm
            ((A.map (fun g => g.emails)).flatten ++ g.emails) := List.perm_append_comm
        have hp := hp0.append_right ((B.map (fun g => g.emails)).flatten)
        rw [List.append_assoc, List.append_assoc] at hp
        exact hp
    · rw [if_neg hd]
      simp only [List.map_nil, List.nil_append]
      exact savedPairs_snd_subperm rest groups hk.2

theorem savedPairs_snd_mem (groups : List SenderGroup) :
    ∀ (ds : List (String × Decision)) (p : String × Email), p ∈ savedPairs groups ds →
    ∃ g, g ∈ groups ∧ p.2 ∈ g.emails
  | [], p, hp => by simp [savedPairs] at hp
  | (s, d) :: rest, p, hp => by
    simp only [savedPairs] at hp
    rcases List.mem_append.mp hp with h | h
    · by_cases hd : d = Decision.delete
      · rw [if_pos hd] at h
        cases hlook : lookupGroup groups s with
        | none =>
          rw [hlook] at h
          simp at h
        | some g =>
          rw [hlook] at h
          obtain ⟨e, he, heq⟩ := List.mem_map.mp h
          refine ⟨g, List.mem_of_find?_eq_some hlook, ?_⟩
          rw [← heq]
          exact he
      · rw [if_neg hd] at h
        simp at h
    · exact savedPairs_snd_mem groups rest p h

theorem group_member_in_emails (emails : List Email) {g : SenderGroup} {e : Email}
    (hg : g ∈ group_by_sender emails) (he : e ∈ g.emails) : e ∈ emails := by
  have hperm := group_by_sender_flatten emails
  apply hperm.mem_iff.mp
  apply List.mem_flatten.mpr
  exact ⟨g.emails, List.mem_map_of_mem _ hg, he⟩

theorem savedPairs_ids_nodup (emails : List Email) (ds : List (String × Decision))
    (hids : (emails.map (fun e => e.id)).Nodup) (hkeys : (ds.map Prod.fst).Nodup) :
    ((savedPairs (group_by_sender emails) ds).map (fun p => p.2.id)).Nodup := by
  have hsub := savedPairs_snd_subperm ds (group_by_sender emails) hkeys
  have hsub2 := subperm_map (fun e => e.id) hsub
  rw [List.map_map] at hsub2
  have hperm := (group_by_sender_flatten emails).map (fun e => e.id)
  have hnd2 : ((((group_by_sender emails).map (fun g => g.emails)).flatten).map
      (fun e => e.id)).Nodup := hperm.symm.nodup hids
  have hres := subperm_nodup hsub2 hnd2
  simpa [Function.comp] using hres

theorem string_toList_append (s t : String) : (s ++ t).toList = s.toList ++ t.toList :=
  String.data_append s t

theorem takeWhile_append_elem (p : Char → Bool) : ∀ (l : List Char) (x : Char) (r : List Char),
    (∀ c ∈ l, p c = true) → p x = false → ((l ++ x :: r).takeWhile p) = l
  | [], x, r, _, hx => by
    simp only [List.nil_append, List.takeWhile_cons]
    rw [if_neg (by simp [hx])]
  | c :: l, x, r, hall, hx => by
    have hc : p c = true := hall c (List.mem_cons_self _ _)
    simp only [List.cons_append, List.takeWhile_cons]
    rw [if_pos hc, takeWhile_append_elem p l x r
      (fun c2 h2 => hall c2 (List.mem_cons_of_mem _ h2)) hx]

theorem extractId_fname (e : Email) (safe : String) (hu : '_' ∉ e.id.toList) :
    extractId (fname e safe) = e.id := by
  unfold extractId fname
  have htl : (e.id ++ "_" ++ safe ++ ".json").toList =
      e.id.toList ++ '_' :: (safe ++ ".json").toList := by
    rw [string_toList_append, string_toList_append, string_toList_append]
    simp [List.append_assoc]
  rw [htl, takeWhile_append_elem _ e.id.toList '_' _ ?_ (by simp)]
  · rfl
  · intro c hc
    have hne : c ≠ '_' := fun heq => hu (heq ▸ hc)
    simp [hne]

/-- C10 counterexample: the execute step writes the same archive filename
a_b_c.json for the two distinct message ids "a" (sanitized sender b_c)
and "a_b" (sanitized sender c), so filenames are not pairwise distinct
whenever message ids are distinct. -/
theorem archive_filenames_counterexample :
    ((clashEmails.map (fun e => e.id)).Nodup) ∧
      ¬ (savedPaths (execTrace (group_by_sender clashEmails) (fun _ => true)
          clashDecisions)).Nodup := by
  decide

/-- C10 (amended): within a single run over fetched emails whose ids are
pairwise distinct and contain no underscore, all archive filenames
written by the execute step are pairwise distinct: the filename is the
message id, an underscore, the sanitized sender and ".json", the id is
recoverable as the text before the first underscore, each email belongs
to exactly one group, and no sender is processed twice. -/
theorem archive_filenames_distinct (emails : List Email) (trashOk : String → Bool)
    (ds : List (String × Decision))
    (hids : (emails.map (fun e => e.id)).Nodup)
    (hu : ∀ e ∈ emails, '_' ∉ e.id.toList)
    (hkeys : (ds.map Prod.fst).Nodup) :
    (savedPaths (execTrace (group_by_sender emails) trashOk ds)).Nodup := by
  rw [savedPaths_eq_pairs]
  apply List.Nodup.of_map extractId
  rw [List.map_map]
  have hcong : (savedPairs (group_by_sender emails) ds).map
      (extractId ∘ fun p => fname p.2 (safeSender p.1)) =
      (savedPairs (group_by_sender emails) ds).map (fun p => p.2.id) := by
    apply List.map_congr_left
    intro p hp
    obtain ⟨g, hg, hpe⟩ := savedPairs_snd_mem (group_by_sender emails) ds p hp
    have hpe2 : p.2 ∈ emails := group_member_in_emails emails hg hpe
    exact extractId_fname p.2 _ (hu p.2 hpe2)
  rw [hcong]
  exact savedPairs_ids_nodup emails ds hids hkeys

/-- C10 witness: the amended distinctness applied to the concrete demo
run, whose message ids id1, id2, id3 contain no underscore. -/
theorem archive_filenames_distinct_witness :
    (savedPaths (execTrace (group_by_sender demoEmails) (fun _ => true) demoDecisions)).Nodup :=
  archive_filenames_distinct demoEmails (fun _ => true) demoDecisions
    (by decide) (by decide) (by decide)
